import Mathlib

/-!
Shallow embedding of the ICD-10-CM term pipeline (icd10cm_pipeline.py and
icd10cm_rules.py) over `List Char` / `String`, together with proofs of the
specification claims about it.

Modelling conventions:
- Python strings are modelled as Lean `String` (a wrapper around `List Char`);
  all operations are written against the character list.
- Python's whitespace class (`str.strip`, `str.isspace`, regex `\s`) is the
  Unicode whitespace set, reproduced in `isWs` below.  Both `\s` and the
  explicit ` ` of `FINAL_PUNCT_RE` fall in this set.
- `str.lower`, `str.isdigit` and the regex classes `\d`, `\w`, `[a-z]` are
  modelled over ASCII, which covers the catalog's alphabet.
- The regexes of the source are straight-line patterns; each one is embedded
  as a deterministic matcher that reproduces the Python engine's
  leftmost-match, greedy/lazy backtracking behaviour for that pattern.
-/

/-- Python's whitespace predicate (`str.isspace`, regex `\s`): ASCII
whitespace, the C1 controls `\x1c`-`\x1f`, `\x85`, and the Unicode space
characters, including the non-breaking space `\xa0`. -/
def isWs (c : Char) : Bool :=
  c = ' ' || c = '\t' || c = '\n' || c = '\x0b' || c = '\x0c' || c = '\r' ||
  c = '\x1c' || c = '\x1d' || c = '\x1e' || c = '\x1f' ||
  c = '\x85' || c = '\xa0' || c = '\u1680' ||
  ('\u2000' ≤ c && c ≤ '\u200a') || c = '\u2028' || c = '\u2029' ||
  c = '\u202f' || c = '\u205f' || c = '\u3000'

/-- The trailing-punctuation class of `FINAL_PUNCT_RE`: `[\.!?,;:]`. -/
def isPunctF (c : Char) : Bool :=
  c = '.' || c = '!' || c = '?' || c = ',' || c = ';' || c = ':'

/-- Python `str.strip()`: drop whitespace from both ends. -/
def pyStrip (l : List Char) : List Char :=
  ((l.dropWhile isWs).reverse.dropWhile isWs).reverse

/-- Python `str.rstrip()`: drop whitespace from the right end. -/
def pyRstrip (l : List Char) : List Char :=
  (l.reverse.dropWhile isWs).reverse

/-- Python `line.rstrip("\r\n")`: drop any mix of CR/LF from the right end. -/
def rstripCRLF (l : List Char) : List Char :=
  (l.reverse.dropWhile (fun c => c = '\r' || c = '\n')).reverse

/-- One pass of `WS_RE.sub(" ", ·)` (`WS_RE = \s+`): every maximal run of
whitespace becomes a single ASCII space.  The run's characters are consumed
pairwise; the last character of a run produces the space. -/
def collapseWs : List Char → List Char
  | [] => []
  | [c] => [if isWs c then ' ' else c]
  | c1 :: c2 :: rest =>
    if isWs c1 && isWs c2 then collapseWs (c2 :: rest)
    else (if isWs c1 then ' ' else c1) :: collapseWs (c2 :: rest)

/-- `normalize_spaces` of icd10cm_rules.py (and `_normalize_spaces` of the
pipeline): `WS_RE.sub(" ", term).strip()`. -/
def normalizeSpacesL (l : List Char) : List Char :=
  pyStrip (collapseWs l)

/-- String-level `normalize_spaces`. -/
def normalize_spaces (s : String) : String :=
  ⟨normalizeSpacesL s.data⟩

/-- One application of `FINAL_PUNCT_RE.sub("", ·)` where
`FINAL_PUNCT_RE = [\s ]*[\.!?,;:]+\s*$`.  Because the pattern is
anchored at the end of the string, `re.sub` removes exactly the longest
suffix of the form whitespace*, punctuation+, whitespace* (one match; the
scan then reaches the end of the string).  On the reversed list this is:
drop trailing whitespace, drop a nonempty punctuation run, drop whitespace;
if there is no punctuation run the string is unchanged. -/
def finalPunctStrip (l : List Char) : List Char :=
  let r1 := l.reverse.dropWhile isWs
  match r1 with
  | [] => l
  | c :: _ =>
    if isPunctF c then ((r1.dropWhile isPunctF).dropWhile isWs).reverse
    else l

/-- `canonicalize` of icd10cm_pipeline.py on character lists:
`term.strip().lower()`, then `FINAL_PUNCT_RE.sub("", term)`, then
`WS_RE.sub(" ", term).strip()`.  Lowercasing is `str.lower` restricted to
ASCII (`Char.toLower`). -/
def canonList (l : List Char) : List Char :=
  pyStrip (collapseWs (finalPunctStrip ((pyStrip l).map Char.toLower)))

/-- `canonicalize(term)` of icd10cm_pipeline.py. -/
def canonicalize (s : String) : String :=
  ⟨canonList s.data⟩


/-! ### Row parser (icd10cm_pipeline.py) -/

/-- `int(·)` on a digit string (the regexes and the fixed-width branch only
convert all-digit slices). -/
def digitsToNat (l : List Char) : Nat :=
  l.foldl (fun n c => n * 10 + (c.toNat - '0'.toNat)) 0

/-- `IcdRow` of icd10cm_pipeline.py. -/
structure IcdRow where
  order : Nat
  code : String
  flag : Nat
  short_desc : String
  long_desc : String
deriving DecidableEq, Repr

/-- Fixed-width strategy of `parse_line`: applies when
`len(raw) >= LONG_DESC_INDEX (76)`, `raw[0:5].isdigit()` and
`raw[14:15] in ("0", "1")`.  Slices: order `[0:5]`, code `[6:13]`
stripped, flag at 14, short `[16:76]` right-stripped, long `[76:]`
stripped with fallback to short when empty.

The source's guard `str.isdigit` also accepts non-decimal digit-type
characters (superscript digits and the like) on which the following
`int(raw[0:5])` then raises `ValueError`; those raising inputs are
captured exactly by `parse_line_raises` below, and this Option-valued
strategy models the source's returning behaviour over the catalog's ASCII
digit alphabet. -/
def parseFixed (raw : List Char) : Option IcdRow :=
  if 76 ≤ raw.length && (raw.take 5).all Char.isDigit then
    let flagCh := (raw.drop 14).take 1
    if flagCh = ['0'] || flagCh = ['1'] then
      let code := pyStrip ((raw.drop 6).take 7)
      let shortD := pyRstrip ((raw.drop 16).take 60)
      let longD0 := pyStrip (raw.drop 76)
      let longD := if longD0 = [] then shortD else longD0
      some { order := digitsToNat (raw.take 5), code := ⟨code⟩,
             flag := if flagCh = ['1'] then 1 else 0,
             short_desc := ⟨shortD⟩, long_desc := ⟨longD⟩ }
    else none
  else none

/-- Tail `(?P<long>.*)\s*$` of `LINE_RE`, started at a given suffix `t` of a
line that does not end in a newline (so `$` is end-of-string only).  `.`
does not cross `\n`: the greedy `.*` captures up to the first `\n` (or all
of `t`), and the match succeeds only if everything from that `\n` on is
whitespace.  Returns the `long` capture. -/
def tailLong (t : List Char) : Option (List Char) :=
  if '\n' ∈ t then
    if (t.dropWhile (fun c => c != '\n')).all isWs then
      some (t.takeWhile (fun c => c != '\n'))
    else none
  else some t

/-- Greedy `\s{2,}` of `LINE_RE` followed by `tailLong`: tries the longest
whitespace run first and backtracks down to two characters. -/
def sepTailFrom (t : List Char) : Nat → Option (List Char)
  | 0 => none
  | 1 => none
  | m + 2 =>
    match tailLong (t.drop (m + 2)) with
    | some lg => some lg
    | none => sepTailFrom t (m + 1)

/-- `\s{2,}(?P<long>.*)\s*$` at the start of `t`. -/
def sepTail (t : List Char) : Option (List Char) :=
  sepTailFrom t (t.takeWhile isWs).length

/-- Lazy `(?P<short>.*?)` of `LINE_RE`: grow the short capture one character
at a time (never across `\n`), testing the separator-and-tail at each stop.
`acc` holds the reversed short capture so far. -/
def shortLongGo (acc : List Char) : List Char → Option (List Char × List Char)
  | [] =>
    match sepTail [] with
    | some lg => some (acc.reverse, lg)
    | none => none
  | c :: rest =>
    match sepTail (c :: rest) with
    | some lg => some (acc.reverse, lg)
    | none => if c = '\n' then none else shortLongGo (c :: acc) rest

/-- `(?P<short>.*?)\s{2,}(?P<long>.*)\s*$` at the start of `t`. -/
def shortLong (t : List Char) : Option (List Char × List Char) :=
  shortLongGo [] t

/-- Greedy `\s+` before the short capture of `LINE_RE`: tries the full run
first, then backtracks (the lazy `.*?` may absorb run characters). -/
def wsShortLongFrom (t : List Char) : Nat → Option (List Char × List Char)
  | 0 => none
  | k + 1 =>
    match shortLong (t.drop (k + 1)) with
    | some r => some r
    | none => wsShortLongFrom t k

/-- `\s+(?P<short>.*?)\s{2,}(?P<long>.*)\s*$` at the start of `t`. -/
def wsShortLong (t : List Char) : Option (List Char × List Char) :=
  let w := (t.takeWhile isWs).length
  if w = 0 then none else wsShortLongFrom t w

/-- Delimiter-pattern strategy: `LINE_RE.match(raw)` where `LINE_RE` is
`^(?P<order>\d{5})\s+(?P<code>\S+)\s+(?P<flag>[01])\s+(?P<short>.*?)\s{2,}(?P<long>.*)\s*$`.
`\s+`/`\S+` runs are forced to their maximal extents because each is
followed by a character of the complementary class; the `\s+` before the
lazy short capture genuinely backtracks (`wsShortLong`).  Captured short
and long fields are `.strip()`-ed as in the source. -/
def parseDelim (raw : List Char) : Option IcdRow :=
  if (raw.take 5).length = 5 && (raw.take 5).all Char.isDigit then
    let r1 := raw.drop 5
    if (r1.takeWhile isWs).length = 0 then none else
    let r2 := r1.dropWhile isWs
    match r2.takeWhile (fun c => !isWs c) with
    | [] => none
    | c0 :: cs =>
      let r3 := r2.dropWhile (fun c => !isWs c)
      if (r3.takeWhile isWs).length = 0 then none else
      let r4 := r3.dropWhile isWs
      match r4 with
      | [] => none
      | f :: r5 =>
        if f = '0' || f = '1' then
          match wsShortLong r5 with
          | none => none
          | some (sh, lg) =>
            some { order := digitsToNat (raw.take 5), code := ⟨c0 :: cs⟩,
                   flag := if f = '1' then 1 else 0,
                   short_desc := ⟨pyStrip sh⟩, long_desc := ⟨pyStrip lg⟩ }
        else none
  else none

/-- Greedy `\s+` before the `(?P<rest>.*)$` capture of the best-effort
regex; `(.*)$` succeeds exactly when the remainder contains no `\n` (`$`
is end-of-string only because the line's trailing CR/LF was stripped). -/
def wsRestFrom (t : List Char) : Nat → Option (List Char)
  | 0 => none
  | k + 1 =>
    if '\n' ∈ t.drop (k + 1) then wsRestFrom t k else some (t.drop (k + 1))

/-- Best-effort strategy:
`^(?P<order>\d{5})\s+(?P<code>\S+)\s+(?P<flag>[01])\s+(?P<rest>.*)$`; the
stripped remainder is used as both short and long description. -/
def parseBestEffort (raw : List Char) : Option IcdRow :=
  if (raw.take 5).length = 5 && (raw.take 5).all Char.isDigit then
    let r1 := raw.drop 5
    if (r1.takeWhile isWs).length = 0 then none else
    let r2 := r1.dropWhile isWs
    match r2.takeWhile (fun c => !isWs c) with
    | [] => none
    | c0 :: cs =>
      let r3 := r2.dropWhile (fun c => !isWs c)
      if (r3.takeWhile isWs).length = 0 then none else
      let r4 := r3.dropWhile isWs
      match r4 with
      | [] => none
      | f :: r5 =>
        if f = '0' || f = '1' then
          let w := (r5.takeWhile isWs).length
          if w = 0 then none else
          match wsRestFrom r5 w with
          | none => none
          | some rest =>
            let rest := pyStrip rest
            some { order := digitsToNat (raw.take 5), code := ⟨c0 :: cs⟩,
                   flag := if f = '1' then 1 else 0,
                   short_desc := ⟨rest⟩, long_desc := ⟨rest⟩ }
        else none
  else none

/-- `parse_line(line)` of icd10cm_pipeline.py: strip trailing CR/LF, reject
blank lines, then try the fixed-width, delimiter-pattern and best-effort
strategies in order. -/
def parse_line (line : String) : Option IcdRow :=
  let raw := rstripCRLF line.data
  if pyStrip raw = [] then none
  else
    match parseFixed raw with
    | some row => some row
    | none =>
      match parseDelim raw with
      | some row => some row
      | none => parseBestEffort raw

/-- Unicode decimal digits (general category Nd): the characters that
`int()` converts and that the regex `\d` matches.  Modelled over ASCII
plus the Nd blocks of the common scripts (Arabic-Indic, extended
Arabic-Indic, Devanagari, Bengali, fullwidth). -/
def pyIsDecimalDigit (c : Char) : Bool :=
  c.isDigit ||
  ('\u0660' ≤ c && c ≤ '\u0669') ||
  ('\u06f0' ≤ c && c ≤ '\u06f9') ||
  ('\u0966' ≤ c && c ≤ '\u096f') ||
  ('\u09e6' ≤ c && c ≤ '\u09ef') ||
  ('\uff10' ≤ c && c ≤ '\uff19')

/-- Python `str.isdigit` per character: decimal digits plus the
Numeric_Type=Digit characters — the superscript digits `\xb9`, `\xb2`,
`\xb3` and `\u2070`, `\u2074`-`\u2079`, the subscript digits
`\u2080`-`\u2089`, and the circled digits `\u2460`-`\u2468`.  On these
extra characters `int()` raises `ValueError`. -/
def pyIsDigit (c : Char) : Bool :=
  pyIsDecimalDigit c ||
  c = '\xb9' || c = '\xb2' || c = '\xb3' ||
  c = '\u2070' || ('\u2074' ≤ c && c ≤ '\u2079') ||
  ('\u2080' ≤ c && c ≤ '\u2089') ||
  ('\u2460' ≤ c && c ≤ '\u2468')

/-- The raising inputs of `parse_line`: the source reaches
`int(raw[0:5])` exactly when the line is non-blank, at least 76
characters, `raw[0:5].isdigit()` holds and the flag character is `0`/`1`;
`int` then raises `ValueError` exactly when the five-character order slice
contains a digit-type character outside the decimal category.  (The two
regex strategies cannot raise: `\d` matches decimal digits only, on which
`int` always succeeds.) -/
def parse_line_raises (line : String) : Bool :=
  let raw := rstripCRLF line.data
  if pyStrip raw = [] then false
  else if 76 ≤ raw.length && (raw.take 5).all pyIsDigit then
    if (raw.drop 14).take 1 = ['0'] || (raw.drop 14).take 1 = ['1'] then
      !((raw.take 5).all pyIsDecimalDigit)
    else false
  else false


/-! ### Enrichment rules (icd10cm_rules.py) -/

/-- Python regex `\w` (word character), modelled over ASCII:
letters, digits and underscore. -/
def isWordChar (c : Char) : Bool :=
  c.isAlpha || c.isDigit || c = '_'

/-- `_normalize_dashes`: en dash and em dash to ASCII hyphen. -/
def normalizeDashes (l : List Char) : List Char :=
  l.map (fun c => if c = '–' || c = '—' then '-' else c)

/-- `_rule_hyphen_to_space` (rule A1). -/
def ruleHyphenToSpace (term : String) : List String :=
  if term.data.any (fun c => c = '-' || c = '–' || c = '—') then
    [⟨(normalizeDashes term.data).map (fun c => if c = '-' then ' ' else c)⟩]
  else []

/-- `_rule_hyphen_remove` (rule A2): `t.replace("-", "")` removes every
hyphen after dash normalization. -/
def ruleHyphenRemove (term : String) : List String :=
  if term.data.any (fun c => c = '-' || c = '–' || c = '—') then
    [⟨(normalizeDashes term.data).filter (fun c => c != '-')⟩]
  else []

/-- `_rule_remove_apostrophes` (rule A3): drops both `'` and `’`. -/
def ruleRemoveApostrophes (term : String) : List String :=
  if term.data.any (fun c => c = '\'' || c = '’') then
    [⟨term.data.filter (fun c => !(c = '’' || c = '\''))⟩]
  else []

/-- Substring containment, as Python's `pat in s` (nonempty `pat`). -/
def containsSub (pat : List Char) : List Char → Bool
  | [] => pat.isPrefixOf []
  | c :: rest => pat.isPrefixOf (c :: rest) || containsSub pat rest

/-- Python `s.replace(pat, repl)` for a nonempty `pat`: replace every
non-overlapping occurrence, scanning left to right.  Fuel (the length of
the list) bounds the recursion; every step consumes at least one
character. -/
def replaceSubFuel (pat repl : List Char) : Nat → List Char → List Char
  | 0, l => l
  | _ + 1, [] => []
  | fuel + 1, c :: rest =>
    if pat.isPrefixOf (c :: rest) && !pat.isEmpty then
      repl ++ replaceSubFuel pat repl fuel ((c :: rest).drop pat.length)
    else c :: replaceSubFuel pat repl fuel rest

/-- Python `s.replace(pat, repl)` (nonempty `pat`). -/
def replaceSub (pat repl : List Char) (l : List Char) : List Char :=
  replaceSubFuel pat repl l.length l

/-- `_rule_swap_and_amp` (rule A4). -/
def ruleSwapAndAmp (term : String) : List String :=
  let out := if containsSub (" and ".data) term.data
    then [(⟨replaceSub (" and ".data) (" & ".data) term.data⟩ : String)] else []
  if containsSub (" & ".data) term.data
    then out ++ [⟨replaceSub (" & ".data) (" and ".data) term.data⟩] else out

/-- `_rule_swap_or_slash` (rule A5). -/
def ruleSwapOrSlash (term : String) : List String :=
  let out := if containsSub (" or ".data) term.data
    then [(⟨replaceSub (" or ".data) (" / ".data) term.data⟩ : String)] else []
  if containsSub (" / ".data) term.data
    then out ++ [⟨replaceSub (" / ".data) (" or ".data) term.data⟩] else out

/-- `_regex_sub_rule(pattern, replacement)` for the B-rule patterns.  Each
B-rule pattern is written `r"\\b...\\b"` in the source: inside a raw string
`\\` is two characters, which the regex engine reads as an escaped literal
backslash.  The compiled pattern therefore has no metacharacters at all and
matches the literal text `\b...\b` (backslash, `b`, the word, backslash,
`b`).  `rx.search` is substring containment and `rx.sub` replaces every
occurrence of that literal text. -/
def regexLiteralSubRule (pat repl : String) (term : String) : List String :=
  if containsSub pat.data term.data then
    [⟨replaceSub pat.data repl.data term.data⟩]
  else []

/-- `\s+` step inside a regex: consume the maximal nonempty whitespace run.
Every use in these patterns is followed by a non-whitespace literal, so the
greedy run never gives characters back. -/
def wsPlus (l : List Char) : Option (List Char) :=
  match l.takeWhile isWs with
  | [] => none
  | _ => some (l.dropWhile isWs)

/-- Literal text step inside a regex. -/
def litStep (pat : List Char) (l : List Char) : Option (List Char) :=
  if pat.isPrefixOf l then some (l.drop pat.length) else none

/-- Attempt of `\bdue\s+to\b` at the current position.  `prevWord` tells
whether the character before this position is a word character: the first
`\b` requires it to be false (the next character `d` is a word character),
and the final `\b` requires the character after `to` to be a non-word
character or the end. -/
def dueToMatchAt (prevWord : Bool) (l : List Char) : Option (List Char) :=
  if prevWord then none
  else
    match litStep ("due".data) l with
    | none => none
    | some l1 =>
      match wsPlus l1 with
      | none => none
      | some l2 =>
        match litStep ("to".data) l2 with
        | none => none
        | some l3 =>
          match l3 with
          | [] => some []
          | c :: _ => if isWordChar c then none else some l3

/-- `rx.search` for `\bdue\s+to\b`: scan every position left to right. -/
def dueToFound (prevWord : Bool) : List Char → Bool
  | [] => false
  | c :: rest =>
    (dueToMatchAt prevWord (c :: rest)).isSome || dueToFound (isWordChar c) rest

/-- `rx.sub` for `\bdue\s+to\b`: replace every non-overlapping match,
scanning left to right; after a match the scan resumes after the matched
span (whose last character `o` is a word character).  Fuel bounds the
recursion; every step consumes at least one character. -/
def dueToSubFuel (repl : List Char) : Nat → Bool → List Char → List Char
  | 0, _, l => l
  | _ + 1, _, [] => []
  | fuel + 1, prevWord, c :: rest =>
    match dueToMatchAt prevWord (c :: rest) with
    | some l3 => repl ++ dueToSubFuel repl fuel true l3
    | none => c :: dueToSubFuel repl fuel (isWordChar c) rest

/-- `_rule_due_to_variants` (rule C1). -/
def ruleDueToVariants (term : String) : List String :=
  if dueToFound false term.data then
    [⟨dueToSubFuel ("because of".data) term.data.length false term.data⟩,
     ⟨dueToSubFuel ("caused by".data) term.data.length false term.data⟩]
  else []

/-- `str.split()` with no separator: split on whitespace runs, dropping
empty fields.  Fuel (the list length) bounds the recursion; every step
consumes at least one character. -/
def pySplitWsFuel : Nat → List Char → List (List Char)
  | 0, _ => []
  | _ + 1, [] => []
  | fuel + 1, c :: rest =>
    if isWs c then pySplitWsFuel fuel rest
    else (c :: rest.takeWhile (fun d => !isWs d)) ::
      pySplitWsFuel fuel (rest.dropWhile (fun d => !isWs d))

/-- `str.split()` with no separator. -/
def pySplitWs (l : List Char) : List (List Char) :=
  pySplitWsFuel l.length l

/-- Stem extraction of `_rule_unspecified_suffix_to_prefix` (source name;
rule C2): the term minus the literal suffix `", unspecified"`,
right-stripped, minus one more trailing comma, right-stripped again. -/
def unspecStem (term : String) : List Char :=
  let stem := pyRstrip (term.data.take (term.data.length - ", unspecified".data.length))
  match stem.reverse with
  | ',' :: r => pyRstrip r.reverse
  | _ => stem

/-- `_rule_unspecified_suffix_to_prefix` of icd10cm_rules.py (rule C2).
Fires only when the term ends with `", unspecified"`; the stem must be
nonempty and contain at least two whitespace-separated words. -/
def ruleUnspecifiedSuffixSwap (term : String) : List String :=
  if ", unspecified".data.isSuffixOf term.data then
    let stem := unspecStem term
    if stem = [] then []
    else if (pySplitWs stem).length < 2 then []
    else [⟨"unspecified ".data ++ stem⟩]
  else []


/-- Digit class `[1-4]` of the stage-range rule. -/
def digit14 (c : Char) : Option Nat :=
  if '1' ≤ c && c ≤ '4' then some (c.toNat - '0'.toNat) else none

/-- Continuation of the stage-range pattern after the `(?:through|thru)`
alternative: `\s+stage\s+(?P<b>[1-4])\b`.  Returns the second stage digit
and the remainder after the match. -/
def stageContAfterKeyword (l : List Char) : Option (Nat × List Char) :=
  match wsPlus l with
  | none => none
  | some l1 =>
    match litStep ("stage".data) l1 with
    | none => none
    | some l2 =>
      match wsPlus l2 with
      | none => none
      | some l3 =>
        match l3 with
        | [] => none
        | c :: l4 =>
          match digit14 c with
          | none => none
          | some b =>
            match l4 with
            | [] => some (b, [])
            | d :: _ => if isWordChar d then none else some (b, l4)

/-- Attempt of `\bstage\s+(?P<a>[1-4])\s+(?:through|thru)\s+stage\s+(?P<b>[1-4])\b`
at the current position.  The alternation tries `through` first and falls
back to `thru` when the rest of the pattern fails (when the text reads
`through`, the fallback dies at the following `\s+`). -/
def stageMatchAt (prevWord : Bool) (l : List Char) : Option (Nat × Nat × List Char) :=
  if prevWord then none
  else
    match litStep ("stage".data) l with
    | none => none
    | some l1 =>
      match wsPlus l1 with
      | none => none
      | some l2 =>
        match l2 with
        | [] => none
        | c :: l3 =>
          match digit14 c with
          | none => none
          | some a =>
            match wsPlus l3 with
            | none => none
            | some l4 =>
              match (litStep ("through".data) l4).bind stageContAfterKeyword with
              | some (b, rest) => some (a, b, rest)
              | none =>
                match (litStep ("thru".data) l4).bind stageContAfterKeyword with
                | some (b, rest) => some (a, b, rest)
                | none => none

/-- `rx.search` for the stage-range pattern: leftmost match, returning the
prefix before the match, both digits, and the suffix after the match.
`revPre` is the reversed prefix scanned so far; `prevWord` tracks the word
character preceding the current position (a match cannot start at the end
of the string, since it needs the literal `stage`). -/
def stageSearchAux (revPre : List Char) (prevWord : Bool) :
    List Char → Option (List Char × Nat × Nat × List Char)
  | [] => none
  | c :: rest =>
    match stageMatchAt prevWord (c :: rest) with
    | some (a, b, post) => some (revPre.reverse, a, b, post)
    | none => stageSearchAux (c :: revPre) (isWordChar c) rest

/-- `_rule_expand_ckd_stage_range` of icd10cm_rules.py (rule D1): on the
leftmost match with digits `a`, `b`, one variant per stage in
`[min a b, max a b]`, each produced by `rx.sub("stage {k}", term, count=1)`,
i.e. by replacing exactly the matched span. -/
def ruleExpandCkdStageRange (term : String) : List String :=
  match stageSearchAux [] false term.data with
  | none => []
  | some (pre, a, b, post) =>
    let lo := min a b
    let hi := max a b
    (List.range (hi + 1 - lo)).map
      (fun i => ⟨pre ++ ("stage ".data) ++ [Char.ofNat ('0'.toNat + (lo + i))] ++ post⟩)


/-- Lowercase ASCII letter class `[a-z]` of the parenthetical patterns. -/
def isLowerAZ (c : Char) : Bool :=
  'a' ≤ c && c ≤ 'z'

/-- Attempt of `([a-z]+)\((s|es)\)` at the current position (only run
starts can match, see `sfxScanAll`): a maximal nonempty letter run must be
followed immediately by `(s)` or `(es)`.  Returns (run, suffix letters,
remainder after the closing parenthesis). -/
def sfxMatchAt (l : List Char) : Option (List Char × List Char × List Char) :=
  let run := l.takeWhile isLowerAZ
  if run.isEmpty then none
  else
    let rest := l.drop run.length
    if ("(s)".data).isPrefixOf rest then some (run, ("s".data), rest.drop 3)
    else if ("(es)".data).isPrefixOf rest then some (run, ("es".data), rest.drop 4)
    else none

/-- `re.finditer(r"([a-z]+)\((s|es)\)", s)`: all non-overlapping matches in
left-to-right order, each returned as (text before the match, letter run,
suffix letters, text after the match).  A match can only start at the
beginning of a maximal letter run: a start inside a run sees the same
closing-parenthesis context and the iterator prefers the earlier position;
`prevLetter` tracks whether the previous character is a lowercase letter.
Fuel (the list length) bounds the recursion. -/
def sfxScanAll : Nat → List Char → Bool → List Char →
    List (List Char × List Char × List Char × List Char)
  | 0, _, _, _ => []
  | _ + 1, _, _, [] => []
  | fuel + 1, revPre, prevLetter, c :: rest =>
    match if prevLetter then none else sfxMatchAt (c :: rest) with
    | some (run, suff, after) =>
      (revPre.reverse, run, suff, after) ::
        sfxScanAll fuel ((')' :: suff.reverse ++ '(' :: run.reverse) ++ revPre) false after
    | none => sfxScanAll fuel (c :: revPre) (isLowerAZ c) rest

/-- `re.sub(r"([a-z]+)\((s|es)\)", r"\1", s)`: every match replaced by its
letter run. -/
def sfxSub : Nat → Bool → List Char → List Char
  | 0, _, l => l
  | _ + 1, _, [] => []
  | fuel + 1, prevLetter, c :: rest =>
    match if prevLetter then none else sfxMatchAt (c :: rest) with
    | some (run, _, after) => run ++ sfxSub fuel false after
    | none => c :: sfxSub fuel (isLowerAZ c) rest

/-- Attempt of `([a-z]+y)\(ies\)` at the current position: the greedy
`[a-z]+` hands back exactly one character, so the whole maximal run (at
least two letters, ending in `y`) must be followed by `(ies)`. -/
def yiesMatchAt (l : List Char) : Option (List Char × List Char) :=
  let run := l.takeWhile isLowerAZ
  if run.length < 2 then none
  else if run.getLast? = some 'y' then
    let rest := l.drop run.length
    if ("(ies)".data).isPrefixOf rest then some (run, rest.drop 5) else none
  else none

/-- `re.finditer(r"([a-z]+y)\(ies\)", s)`: all non-overlapping matches as
(text before, run ending in y, text after). -/
def yiesScanAll : Nat → List Char → Bool → List Char →
    List (List Char × List Char × List Char)
  | 0, _, _, _ => []
  | _ + 1, _, _, [] => []
  | fuel + 1, revPre, prevLetter, c :: rest =>
    match if prevLetter then none else yiesMatchAt (c :: rest) with
    | some (run, after) =>
      (revPre.reverse, run, after) ::
        yiesScanAll fuel ((')' :: 's' :: 'e' :: 'i' :: '(' :: run.reverse) ++ revPre) false after
    | none => yiesScanAll fuel (c :: revPre) (isLowerAZ c) rest

/-- `re.sub(r"([a-z]+y)\(ies\)", r"\1", s)`. -/
def yiesSub : Nat → Bool → List Char → List Char
  | 0, _, l => l
  | _ + 1, _, [] => []
  | fuel + 1, prevLetter, c :: rest =>
    match if prevLetter then none else yiesMatchAt (c :: rest) with
    | some (run, after) => run ++ yiesSub fuel false after
    | none => c :: yiesSub fuel (isLowerAZ c) rest

/-- `re.finditer(r"\(([^()]*)\)", s)` as a decomposition: returns the
segment before the first match and, per match, its content and the segment
up to the next match (so `s = seg ++ "(" ++ c1 ++ ")" ++ seg1 ++ ...`).
An opening parenthesis not followed by a parenthesis-free stretch and a
closing parenthesis is an ordinary character (the engine then retries from
the next position). -/
def parenScan : Nat → List Char → List Char × List (List Char × List Char)
  | 0, l => (l, [])
  | _ + 1, [] => ([], [])
  | fuel + 1, c :: rest =>
    if c = '(' then
      let content := rest.takeWhile (fun d => !(d = '(' || d = ')'))
      match rest.drop content.length with
      | ')' :: rest2 =>
        let (seg, ms) := parenScan fuel rest2
        ([], (content, seg) :: ms)
      | _ =>
        let (seg, ms) := parenScan fuel rest
        ('(' :: seg, ms)
    else
      let (seg, ms) := parenScan fuel rest
      (c :: seg, ms)

/-- `_rule_parentheses_split` of icd10cm_rules.py (rule P1), in the source's
candidate order: the lowercased original; both optional-suffix variants per
`(s)`/`(es)` match and per `y(ies)` match; then, after rewriting those
suffix groups away (`term_for_parens`), and only if general `(...)` groups
remain: the term with groups removed, the term with the groups' content
inlined, (for two or more groups) one variant per group keeping only that
group's content, each group's stripped content, and all contents joined. -/
def ruleParenthesesSplit (term : String) : List String :=
  if !(term.data.contains '(') || !(term.data.contains ')') then []
  else
    let t := term.data
    let out0 : List String := [⟨t.map Char.toLower⟩]
    let out1 := out0 ++ (sfxScanAll t.length [] false t).flatMap
      (fun m => [(⟨normalizeSpacesL (m.1 ++ m.2.1 ++ m.2.2.2)⟩ : String),
                 ⟨normalizeSpacesL (m.1 ++ m.2.1 ++ m.2.2.1 ++ m.2.2.2)⟩])
    let out2 := out1 ++ (yiesScanAll t.length [] false t).flatMap
      (fun m => [(⟨normalizeSpacesL (m.1 ++ m.2.1 ++ m.2.2)⟩ : String),
                 ⟨normalizeSpacesL (m.1 ++ (m.2.1.dropLast ++ ("ies".data)) ++ m.2.2)⟩])
    let tfp := yiesSub t.length false (sfxSub t.length false t)
    let sm := parenScan tfp.length tfp
    let seg0 := sm.1
    let ms := sm.2
    if ms.isEmpty then out2
    else
      let without := normalizeSpacesL (seg0 ++ ms.flatMap (fun m => ' ' :: m.2))
      let out3 := out2 ++ (if without.isEmpty then [] else [(⟨without⟩ : String)])
      let inlined := normalizeSpacesL (seg0 ++ ms.flatMap (fun m => ' ' :: (m.1 ++ ' ' :: m.2)))
      let out4 := out3 ++ (if inlined.isEmpty then [] else [(⟨inlined⟩ : String)])
      let out5 := out4 ++
        (if 1 < ms.length then
          (List.range ms.length).filterMap (fun ki =>
            let one := normalizeSpacesL (seg0 ++ (ms.enum.flatMap (fun jm =>
              (if jm.1 = ki then
                (let c := pyStrip jm.2.1
                 if c.isEmpty then [' '] else ' ' :: (c ++ [' ']))
               else [' ']) ++ jm.2.2)))
            if one.isEmpty then none else some (⟨one⟩ : String))
         else [])
      let contents := ms.map (fun m => pyStrip m.1)
      let out6 := out5 ++ contents.filterMap
        (fun c => if c.isEmpty then none else some (⟨c⟩ : String))
      let joined := normalizeSpacesL (List.intercalate ([' ']) (contents.filter (fun c => !c.isEmpty)))
      out6 ++ (if joined.isEmpty then [] else [(⟨joined⟩ : String)])


/-! ### Rule table and engine (icd10cm_rules.py) -/

/-- `EnrichmentRule` of icd10cm_rules.py. -/
structure EnrichmentRule where
  rule_id : String
  description : String
  apply : String → List String

/-- `ENRICHMENT_RULES` of icd10cm_rules.py, in table order.  The B rules
are `_regex_sub_rule` entries whose raw-string patterns `r"\\b...\\b"`
contain escaped literal backslashes, so each matches the literal text
`\b...\b` (see `regexLiteralSubRule`). -/
def ENRICHMENT_RULES : List EnrichmentRule := [
  ⟨"P1", "Parentheses split", ruleParenthesesSplit⟩,
  ⟨"D1", "Expand stage 1-4 ranges", ruleExpandCkdStageRange⟩,
  ⟨"A1", "Replace hyphens with spaces", ruleHyphenToSpace⟩,
  ⟨"A2", "Remove hyphens", ruleHyphenRemove⟩,
  ⟨"A3", "Remove apostrophes", ruleRemoveApostrophes⟩,
  ⟨"A4", "Swap 'and' <-> '&'", ruleSwapAndAmp⟩,
  ⟨"A5", "Swap 'or' <-> '/'", ruleSwapOrSlash⟩,
  ⟨"B1", "syndrome <-> synd", regexLiteralSubRule ("\\bsyndrome\\b") ("synd")⟩,
  ⟨"B1", "syndrome <-> synd", regexLiteralSubRule ("\\bsynd\\b") ("syndrome")⟩,
  ⟨"B2", "chronic <-> chr", regexLiteralSubRule ("\\bchronic\\b") ("chr")⟩,
  ⟨"B2", "chronic <-> chr", regexLiteralSubRule ("\\bchr\\b") ("chronic")⟩,
  ⟨"B3", "acute <-> acu", regexLiteralSubRule ("\\bacute\\b") ("acu")⟩,
  ⟨"B3", "acute <-> acu", regexLiteralSubRule ("\\bacu\\b") ("acute")⟩,
  ⟨"B4", "left/right <-> lt/rt", regexLiteralSubRule ("\\bleft\\b") ("lt")⟩,
  ⟨"B4", "left/right <-> lt/rt", regexLiteralSubRule ("\\bright\\b") ("rt")⟩,
  ⟨"B4", "left/right <-> lt/rt", regexLiteralSubRule ("\\blt\\b") ("left")⟩,
  ⟨"B4", "left/right <-> lt/rt", regexLiteralSubRule ("\\brt\\b") ("right")⟩,
  ⟨"C1", "due to -> because of|caused by", ruleDueToVariants⟩,
  ⟨"C2", "suffix comma-unspecified to front", ruleUnspecifiedSuffixSwap⟩]

/-- The candidate loop of `enrich`'s inner `add` over one rule's output:
a candidate is accepted only when the running variant count is below
`maxVariants`, its whitespace-normalized form is nonempty, and that form
is not in the seen set; accepted variants are appended together with the
producing rule's id, and the seen set grows.  (The optional statistics
accumulator does not influence the returned list and is not modelled.) -/
def addCandidates (maxVariants : Nat) (ruleId : String) :
    List String → List (String × String) × List String → List (String × String) × List String
  | [], st => st
  | c :: cs, (variants, seen) =>
    if maxVariants ≤ variants.length then addCandidates maxVariants ruleId cs (variants, seen)
    else
      let n := normalize_spaces c
      if n = "" || n ∈ seen then addCandidates maxVariants ruleId cs (variants, seen)
      else addCandidates maxVariants ruleId cs (variants ++ [(n, ruleId)], n :: seen)

/-- `enrich(term, max_variants, rules)` of icd10cm_rules.py: the seen set
starts with the input term, every rule is run in table order, and the
accepted (variant, rule id) pairs are returned in acceptance order. -/
def enrich (term : String) (maxVariants : Nat) (rules : List EnrichmentRule) :
    List (String × String) :=
  (rules.foldl (fun st rule => addCandidates maxVariants rule.rule_id (rule.apply term) st)
    ([], [term])).1


/-! ### Row emitter (icd10cm_pipeline.py) -/

/-- Python `term.strip()` at the String level (the per-row dedup pass
strips each term before comparing). -/
def stripTerm (s : String) : String :=
  ⟨pyStrip s.data⟩

/-- The de-dup pass at the end of `emit_rows`: strip each term, drop empty
terms, keep only the first occurrence of each distinct (stripped) term
string with the first label seen for it. -/
def dedupTerms (seen : List String) : List (String × String) → List (String × String)
  | [] => []
  | (t, ty) :: rest =>
    let t1 := stripTerm t
    if t1 = "" || t1 ∈ seen then dedupTerms seen rest
    else (t1, ty) :: dedupTerms (t1 :: seen) rest

/-- The pre-dedup output list built by `emit_rows`: the official term; the
short description when abbreviations are enabled, it is nonempty and
differs from the official term; the canonical form of every entry so far
when canonical generation is enabled; and, when enrichment is enabled, the
enrichment of every canonical-labelled entry. -/
def emitRaw (row : IcdRow) (include_official_abbr include_canonical include_enriched : Bool)
    (enriched_max_per_term : Nat) : List (String × String) :=
  let output : List (String × String) := [(row.long_desc, "official")]
  let output :=
    if include_official_abbr && !(row.short_desc = "") && !(row.short_desc = row.long_desc)
    then output ++ [(row.short_desc, "official+abbr")] else output
  let output :=
    if include_canonical
    then output ++ output.map (fun p => (canonicalize p.1, "canonical:" ++ p.2))
    else output
  if include_enriched then
    output ++ (output.filter (fun p => ("canonical:".data).isPrefixOf p.2.data)).flatMap
      (fun p => (enrich p.1 enriched_max_per_term ENRICHMENT_RULES).map
        (fun v => (v.1, "enriched:" ++ v.2)))
  else output

/-- `emit_rows` of icd10cm_pipeline.py: the pre-dedup list followed by the
per-row dedup pass. -/
def emit_rows (row : IcdRow) (include_official_abbr include_canonical include_enriched : Bool)
    (enriched_max_per_term : Nat) : List (String × String) :=
  dedupTerms [] (emitRaw row include_official_abbr include_canonical include_enriched
    enriched_max_per_term)


/-! ### Claim theorems -/

/-- The concrete line on which `parse_line` raises: five superscript-two
characters (accepted by `str.isdigit`, rejected by `int`), nine spaces,
the flag `'0'` at index 14, spaces to length 76. -/
def c1CrashLine : String :=
  ⟨List.replicate 5 '\xb2' ++ List.replicate 9 ' ' ++ '0' :: List.replicate 61 ' '⟩

/-- C1 (code bug): the blank-line cases are absent as claimed, but
`parse_line` is not exception-free.  On `c1CrashLine` the fixed-width
guard passes — the order slice is all `str.isdigit` characters and the
flag is `'0'` — yet the slice is not all decimal digits, so
`int(raw[0:5])` raises `ValueError`, which propagates out of
`parse_line`. -/
theorem claim_c1_parse_line_raises :
    parse_line ("") = none ∧ parse_line ("   ") = none ∧
    parse_line_raises c1CrashLine = true ∧
    (c1CrashLine.data.take 5).all pyIsDigit = true ∧
    (c1CrashLine.data.take 5).all pyIsDecimalDigit = false := by
  refine ⟨rfl, by decide, by decide, by decide, by decide⟩

/-- C2 (code bug): with the full configured rule table (B3 included),
`enrich` yields nothing at all on `"acute bronchitis"`, and nothing on
`"acu bronchitis"`: the B-rule patterns `r"\\bacute\\b"` / `r"\\bacu\\b"`
match only text containing literal backslashes, so the claimed variants
`"acu bronchitis"` / `"acute bronchitis"` are never produced. -/
theorem claim_c2_b3_never_fires :
    enrich ("acute bronchitis") 25 ENRICHMENT_RULES = [] ∧
    enrich ("acu bronchitis") 25 ENRICHMENT_RULES = [] := by
  constructor <;> rfl

/-- C3 counterexample: `canonicalize` is not idempotent; on `". ."` the
single anchored `FINAL_PUNCT_RE` substitution removes only the last
whitespace-separated punctuation run, so one application yields `"."` and
a second application yields `""`. -/
theorem claim_c3_counterexample :
    canonicalize (canonicalize (". .")) ≠ canonicalize (". .") := by decide

/-- The concrete line for the C4 counterexample: 76 characters — five
zeros, nine spaces, the flag character `0` at index 14, spaces to the end.
The fixed-width strategy accepts it and extracts an all-space code slice
and all-space descriptions. -/
def c4Line : String :=
  ⟨("00000".data) ++ List.replicate 9 ' ' ++ '0' :: List.replicate 61 ' '⟩

/-- C4 counterexample: a line on which `parse_line` returns a row whose
`code` and `long_desc` are both empty. -/
theorem claim_c4_counterexample :
    ∃ row, parse_line c4Line = some row ∧ ¬(row.code ≠ "" ∧ row.long_desc ≠ "") := by
  refine ⟨⟨0, "", 0, "", ""⟩, by decide, by decide⟩

/-- The row produced for the C9 scenario line. -/
def c9Row : IcdRow :=
  ⟨1, "A00.0", 1, "Cholera, due to Vibrio cholerae", "Cholera due to Vibrio cholerae"⟩

/-- C9: parsing the scenario line and emitting it with abbreviations,
canonical forms and enrichment enabled (cap 25, the CLI default) yields
the canonical official term and both C1 variants with their labels. -/
theorem claim_c9_end_to_end :
    parse_line ("00001 A00.0 1 Cholera, due to Vibrio cholerae  Cholera due to Vibrio cholerae")
      = some c9Row ∧
    ("cholera due to vibrio cholerae", "canonical:official") ∈ emit_rows c9Row true true true 25 ∧
    ("cholera because of vibrio cholerae", "enriched:C1") ∈ emit_rows c9Row true true true 25 ∧
    ("cholera caused by vibrio cholerae", "enriched:C1") ∈ emit_rows c9Row true true true 25 := by
  refine ⟨by rfl, by decide, by decide, by decide⟩

/-- The candidate loop never grows the variant list beyond the cap. -/
theorem addCandidates_length_le (maxV : Nat) (rid : String) :
    ∀ (cs : List String) (vs : List (String × String)) (seen : List String),
      vs.length ≤ maxV → (addCandidates maxV rid cs (vs, seen)).1.length ≤ maxV := by
  intro cs
  induction cs with
  | nil => intro vs seen h; exact h
  | cons c cs ih =>
    intro vs seen h
    simp only [addCandidates]
    split
    · exact ih vs seen h
    · split
      · exact ih vs seen h
      · apply ih
        simp only [List.length_append, List.length_cons, List.length_nil]
        omega

/-- The rule fold never grows the variant list beyond the cap. -/
theorem enrichFold_length_le (t : String) (k : Nat) :
    ∀ (rules : List EnrichmentRule) (st : List (String × String) × List String),
      st.1.length ≤ k →
      ((rules.foldl (fun st rule => addCandidates k rule.rule_id (rule.apply t) st) st).1.length ≤ k) := by
  intro rules
  induction rules with
  | nil => intro st h; exact h
  | cons r rules ih =>
    intro st h
    exact ih _ (addCandidates_length_le k r.rule_id (r.apply t) st.1 st.2 h)

/-- C5: the fanout cap — for every term, every cap and every rule table,
`enrich` returns at most `max_variants` variants. -/
theorem claim_c5_fanout_cap (t : String) (k : Nat) (rules : List EnrichmentRule) :
    (enrich t k rules).length ≤ k :=
  enrichFold_length_le t k rules ([], [t]) (Nat.zero_le k)

/-- The candidate loop preserves: the input term is in the seen set and no
accepted variant equals it. -/
theorem addCandidates_no_self (maxV : Nat) (rid : String) (t : String) :
    ∀ (cs : List String) (vs : List (String × String)) (seen : List String),
      t ∈ seen → (∀ v ∈ vs, v.1 ≠ t) →
      t ∈ (addCandidates maxV rid cs (vs, seen)).2 ∧
      ∀ v ∈ (addCandidates maxV rid cs (vs, seen)).1, v.1 ≠ t := by
  intro cs
  induction cs with
  | nil => intro vs seen hseen hvs; exact ⟨hseen, hvs⟩
  | cons c cs ih =>
    intro vs seen hseen hvs
    simp only [addCandidates]
    split
    · exact ih vs seen hseen hvs
    · split
      · exact ih vs seen hseen hvs
      · rename_i hcond
        have hne : normalize_spaces c ≠ t := by
          intro he
          exact hcond (by simp [he, hseen])
        apply ih
        · exact List.mem_cons_of_mem _ hseen
        · intro v hv
          rcases List.mem_append.mp hv with h | h
          · exact hvs v h
          · simp only [List.mem_singleton] at h
            subst h
            exact hne

/-- The rule fold preserves the no-self invariant. -/
theorem enrichFold_no_self (t : String) (k : Nat) :
    ∀ (rules : List EnrichmentRule) (st : List (String × String) × List String),
      t ∈ st.2 → (∀ v ∈ st.1, v.1 ≠ t) →
      ∀ v ∈ (rules.foldl (fun st rule => addCandidates k rule.rule_id (rule.apply t) st) st).1,
        v.1 ≠ t := by
  intro rules
  induction rules with
  | nil => intro st hseen hvs; exact hvs
  | cons r rules ih =>
    intro st hseen hvs
    have h := addCandidates_no_self k r.rule_id t (r.apply t) st.1 st.2 hseen hvs
    exact ih _ h.1 h.2

/-- C10: no self-reproduction — for every input term, every cap and every
rule table, the input term never appears among `enrich`'s outputs. -/
theorem claim_c10_no_self_reproduction (t : String) (k : Nat) (rules : List EnrichmentRule) :
    ∀ v ∈ enrich t k rules, v.1 ≠ t :=
  enrichFold_no_self t k rules ([], [t]) (List.mem_singleton.mpr rfl) (by intro v hv; cases hv)

/-- C10 witness: on the hyphenated term `"a-b"` rule A1 produces the
variant `"a b"`, and the theorem discharges that it differs from the
input. -/
theorem claim_c10_no_self_reproduction_witness :
    ("a b", "A1") ∈ enrich ("a-b") 25 ENRICHMENT_RULES ∧ "a b" ≠ "a-b" :=
  ⟨by decide, claim_c10_no_self_reproduction ("a-b") 25 ENRICHMENT_RULES ("a b", "A1") (by decide)⟩

/-- Entries surviving the dedup pass avoid the seen set, and their term
strings are pairwise distinct. -/
theorem dedupTerms_not_seen_nodup :
    ∀ (l : List (String × String)) (seen : List String),
      (∀ x ∈ dedupTerms seen l, x.1 ∉ seen) ∧
      ((dedupTerms seen l).map Prod.fst).Nodup := by
  intro l
  induction l with
  | nil =>
    intro seen
    exact ⟨fun x hx => absurd hx (by simp [dedupTerms]), by simp [dedupTerms]⟩
  | cons a rest ih =>
    intro seen
    obtain ⟨t, ty⟩ := a
    simp only [dedupTerms]
    split
    · exact ih seen
    · rename_i hcond
      have ht1 : stripTerm t ∉ seen := by
        intro hmem
        exact hcond (by simp [hmem])
      constructor
      · intro x hx
        rcases List.mem_cons.mp hx with h | h
        · subst h; exact ht1
        · intro hmem
          exact (ih (stripTerm t :: seen)).1 x h (List.mem_cons_of_mem _ hmem)
      · simp only [List.map_cons, List.nodup_cons]
        constructor
        · intro hmem
          rcases List.mem_map.mp hmem with ⟨x, hx, hx1⟩
          exact (ih (stripTerm t :: seen)).1 x hx (hx1 ▸ List.mem_cons_self _ _)
        · exact (ih (stripTerm t :: seen)).2

/-- The dedup pass returns a sublist of the stripped, empty-free input:
order of first appearances and attached labels are preserved. -/
theorem dedupTerms_sublist :
    ∀ (l : List (String × String)) (seen : List String),
      List.Sublist (dedupTerms seen l)
        ((l.map (fun p => (stripTerm p.1, p.2))).filter (fun p => p.1 != "")) := by
  intro l
  induction l with
  | nil => intro seen; simp [dedupTerms]
  | cons a rest ih =>
    intro seen
    obtain ⟨t, ty⟩ := a
    simp only [dedupTerms, List.map_cons]
    by_cases he : stripTerm t = ""
    · rw [List.filter_cons_of_neg (by simp [he])]
      split
      · exact ih seen
      · rename_i hcond
        exact absurd (by simp [he]) hcond
    · rw [List.filter_cons_of_pos (by simp [he])]
      split
      · exact List.Sublist.cons _ (ih seen)
      · exact List.Sublist.cons₂ _ (ih (stripTerm t :: seen))

/-- For a term not yet seen, the dedup output's entries carrying that term
are exactly the first stripped, nonempty input entry carrying it. -/
theorem dedupTerms_filter_take :
    ∀ (l : List (String × String)) (seen : List String) (t : String), t ∉ seen →
      (dedupTerms seen l).filter (fun p => p.1 == t) =
        (((l.map (fun p => (stripTerm p.1, p.2))).filter (fun p => p.1 != "")).filter
          (fun p => p.1 == t)).take 1 := by
  intro l
  induction l with
  | nil => intro seen t _; simp [dedupTerms]
  | cons a rest ih =>
    intro seen t ht
    obtain ⟨s, ty⟩ := a
    simp only [dedupTerms, List.map_cons]
    by_cases he : stripTerm s = ""
    · rw [List.filter_cons_of_neg (by simp [he])]
      split
      · exact ih seen t ht
      · rename_i hcond
        exact absurd (by simp [he]) hcond
    · rw [List.filter_cons_of_pos (by simp [he])]
      by_cases hseen : stripTerm s ∈ seen
      · rw [if_pos (by simp [hseen])]
        have hne : stripTerm s ≠ t := fun h => ht (h ▸ hseen)
        rw [List.filter_cons_of_neg (by simp [hne])]
        exact ih seen t ht
      · rw [if_neg (by simp [he, hseen])]
        by_cases heq : stripTerm s = t
        · rw [List.filter_cons_of_pos (by simp [heq]),
            List.filter_cons_of_pos (by simp [heq])]
          simp only [List.take_succ_cons, List.take_zero]
          have : (dedupTerms (stripTerm s :: seen) rest).filter (fun p => p.1 == t) = [] := by
            apply List.filter_eq_nil_iff.mpr
            intro x hx
            have := (dedupTerms_not_seen_nodup rest (stripTerm s :: seen)).1 x hx
            simp only [beq_iff_eq]
            intro hxt
            exact this (by rw [hxt, ← heq]; exact List.mem_cons_self _ _)
          rw [this]
        · rw [List.filter_cons_of_neg (by simp [heq]),
            List.filter_cons_of_neg (by simp [heq])]
          apply ih (stripTerm s :: seen) t
          intro hmem
          rcases List.mem_cons.mp hmem with h | h
          · exact heq h.symm
          · exact ht h

/-- C6: per-row dedup — for every row and option combination the emitted
list has pairwise distinct term strings, is a sublist of the stripped,
empty-free pre-dedup candidate list (so relative order of first
appearances and their labels are preserved), and for every term string the
emitted entries carrying it are exactly the first pre-dedup occurrence. -/
theorem claim_c6_emit_rows_dedup (row : IcdRow) (abbr canon enr : Bool) (cap : Nat) :
    ((emit_rows row abbr canon enr cap).map Prod.fst).Nodup ∧
    List.Sublist (emit_rows row abbr canon enr cap)
      (((emitRaw row abbr canon enr cap).map (fun p => (stripTerm p.1, p.2))).filter
        (fun p => p.1 != "")) ∧
    ∀ t : String,
      (emit_rows row abbr canon enr cap).filter (fun p => p.1 == t) =
        ((((emitRaw row abbr canon enr cap).map (fun p => (stripTerm p.1, p.2))).filter
          (fun p => p.1 != "")).filter (fun p => p.1 == t)).take 1 :=
  ⟨(dedupTerms_not_seen_nodup _ []).2,
   dedupTerms_sublist _ [],
   fun t => dedupTerms_filter_take _ [] t (by intro h; cases h)⟩

/-- ASCII lowercasing is idempotent. -/
theorem toLower_toLower (c : Char) : c.toLower.toLower = c.toLower := by
  by_cases h : c.toNat ≥ 65 ∧ c.toNat ≤ 90
  · have h1 : c.toLower = Char.ofNat (c.toNat + 32) := by
      unfold Char.toLower
      rw [if_pos h]
    rw [h1]
    obtain ⟨h65, h90⟩ := h
    generalize c.toNat = n at h65 h90
    interval_cases n <;> decide
  · have h1 : c.toLower = c := by
      unfold Char.toLower
      rw [if_neg h]
    rw [h1, h1]

/-- Adjacent-characters relation: no two consecutive whitespace characters. -/
def wsAdjOk (a b : Char) : Prop := ¬(isWs a = true ∧ isWs b = true)

/-- Characters of `collapseWs l` are spaces or characters of `l`. -/
theorem mem_collapseWs : ∀ (l : List Char), ∀ c ∈ collapseWs l, c = ' ' ∨ c ∈ l := by
  intro l
  induction l with
  | nil => intro c hc; simp [collapseWs] at hc
  | cons a rest ih =>
    cases rest with
    | nil =>
      intro c hc
      simp only [collapseWs, List.mem_singleton] at hc
      subst hc
      by_cases ha : isWs a
      · exact Or.inl (by simp [ha])
      · exact Or.inr (by simp [ha])
    | cons b rest2 =>
      intro c hc
      simp only [collapseWs] at hc
      split at hc
      · rcases ih c hc with h | h
        · exact Or.inl h
        · exact Or.inr (List.mem_cons_of_mem _ h)
      · rcases List.mem_cons.mp hc with h | h
        · subst h
          by_cases ha : isWs a
          · exact Or.inl (by simp [ha])
          · exact Or.inr (by simp [ha])
        · rcases ih c h with h2 | h2
          · exact Or.inl h2
          · exact Or.inr (List.mem_cons_of_mem _ h2)

/-- Whitespace in `collapseWs l` is always the ASCII space. -/
theorem collapseWs_ws_space : ∀ (l : List Char), ∀ c ∈ collapseWs l, isWs c = true → c = ' ' := by
  intro l
  induction l with
  | nil => intro c hc; simp [collapseWs] at hc
  | cons a rest ih =>
    cases rest with
    | nil =>
      intro c hc hw
      simp only [collapseWs, List.mem_singleton] at hc
      subst hc
      by_cases ha : isWs a
      · simp [ha]
      · rw [if_neg ha] at hw
        exact absurd hw ha
    | cons b rest2 =>
      intro c hc hw
      simp only [collapseWs] at hc
      split at hc
      · exact ih c hc hw
      · rcases List.mem_cons.mp hc with h | h
        · subst h
          by_cases ha : isWs a
          · simp [ha]
          · rw [if_neg ha] at hw
            exact absurd hw ha
        · exact ih c h hw

/-- A list headed by a non-whitespace character collapses to that
character followed by the collapse of its tail. -/
theorem collapseWs_cons_of_not_ws (b : Char) (rest : List Char) (hb : ¬ isWs b = true) :
    collapseWs (b :: rest) = b :: collapseWs rest := by
  cases rest with
  | nil => simp [collapseWs, hb]
  | cons c r =>
    simp only [collapseWs]
    rw [if_neg (by simp [hb]), if_neg hb]

/-- `collapseWs` output has no two adjacent whitespace characters. -/
theorem collapseWs_chain' : ∀ (l : List Char), List.Chain' wsAdjOk (collapseWs l) := by
  intro l
  induction l with
  | nil => simp [collapseWs]
  | cons a rest ih =>
    cases rest with
    | nil =>
      simp [collapseWs, List.chain'_singleton]
    | cons b rest2 =>
      simp only [collapseWs]
      split
      · exact ih
      · rename_i hab
        rw [List.chain'_cons']
        refine ⟨?_, ih⟩
        intro y hy
        by_cases ha : isWs a
        · have hb : ¬ isWs b = true := by
            intro hb
            exact hab (by simp [ha, hb])
          rw [collapseWs_cons_of_not_ws b rest2 hb] at hy
          simp only [List.head?_cons, Option.mem_def, Option.some.injEq] at hy
          subst hy
          exact fun hcon => hb hcon.2
        · simp only [if_neg ha]
          exact fun hcon => ha hcon.1

/-- Collapsing is the identity on lists whose whitespace is single spaces
with no two adjacent. -/
theorem collapseWs_eq_self : ∀ (l : List Char),
    (∀ c ∈ l, isWs c = true → c = ' ') → List.Chain' wsAdjOk l → collapseWs l = l := by
  intro l
  induction l with
  | nil => intro _ _; rfl
  | cons a rest ih =>
    intro hsp hch
    cases rest with
    | nil =>
      simp only [collapseWs]
      by_cases ha : isWs a
      · rw [if_pos ha, hsp a (List.mem_singleton.mpr rfl) ha]
      · rw [if_neg ha]
    | cons b rest2 =>
      simp only [collapseWs]
      have hadj : wsAdjOk a b := (List.chain'_cons.mp hch).1
      rw [if_neg (by intro hcon; exact hadj (by simpa using hcon))]
      have htl : collapseWs (b :: rest2) = b :: rest2 :=
        ih (fun c hc => hsp c (List.mem_cons_of_mem _ hc)) (List.chain'_cons.mp hch).2
      rw [htl]
      by_cases ha : isWs a
      · rw [if_pos ha, hsp a (List.mem_cons_self _ _) ha]
      · rw [if_neg ha]

/-- The head of a `dropWhile` survivor falsifies the predicate. -/
theorem head?_dropWhile_not {α} (p : α → Bool) :
    ∀ (l : List α) (c : α), (l.dropWhile p).head? = some c → p c = false := by
  intro l
  induction l with
  | nil => intro c hc; cases hc
  | cons a rest ih =>
    intro c hc
    by_cases ha : p a
    · rw [List.dropWhile_cons_of_pos ha] at hc
      exact ih c hc
    · rw [List.dropWhile_cons_of_neg ha] at hc
      cases hc
      exact Bool.eq_false_iff.mpr ha

/-- Right-stripping yields a prefix of the original list. -/
theorem pyRstrip_prefix_self (x : List Char) : pyRstrip x <+: x := by
  have h := (List.reverse_prefix.mpr (List.dropWhile_suffix (l := x.reverse) isWs))
  rwa [List.reverse_reverse] at h

/-- `pyStrip` is right-stripping after left-stripping. -/
theorem pyStrip_eq (l : List Char) : pyStrip l = pyRstrip (l.dropWhile isWs) := rfl

/-- Characters of `pyStrip l` come from `l`. -/
theorem mem_pyStrip : ∀ (l : List Char), ∀ c ∈ pyStrip l, c ∈ l := by
  intro l c hc
  rw [pyStrip_eq] at hc
  exact (List.dropWhile_sublist isWs).subset ((pyRstrip_prefix_self _).subset hc)

/-- The head of a nonempty prefix heads the whole list. -/
theorem head?_of_prefix_eq {α} {l₁ l₂ : List α} (h : l₁ <+: l₂) :
    ∀ c, l₁.head? = some c → l₂.head? = some c := by
  intro c hc
  obtain ⟨t, ht⟩ := h
  cases l₁ with
  | nil => cases hc
  | cons a r =>
    cases hc
    rw [← ht]
    rfl

/-- The head of a stripped list is not whitespace. -/
theorem pyStrip_head_not_ws (l : List Char) :
    ∀ c, (pyStrip l).head? = some c → isWs c = false := by
  intro c hc
  rw [pyStrip_eq] at hc
  exact head?_dropWhile_not isWs l c (head?_of_prefix_eq (pyRstrip_prefix_self _) c hc)

/-- The last character of a stripped list is not whitespace. -/
theorem pyStrip_getLast_not_ws (l : List Char) :
    ∀ c, (pyStrip l).getLast? = some c → isWs c = false := by
  intro c hc
  rw [List.getLast?_eq_head?_reverse] at hc
  rw [pyStrip_eq, pyRstrip, List.reverse_reverse] at hc
  exact head?_dropWhile_not isWs _ c hc

/-- Stripping is the identity when neither end is whitespace. -/
theorem pyStrip_eq_self (l : List Char)
    (hh : ∀ c, l.head? = some c → isWs c = false)
    (hl : ∀ c, l.getLast? = some c → isWs c = false) : pyStrip l = l := by
  cases l with
  | nil => rfl
  | cons a rest =>
    have ha : isWs a = false := hh a rfl
    unfold pyStrip
    rw [List.dropWhile_cons_of_neg (by simp [ha])]
    cases hrev : (a :: rest).reverse with
    | nil => simp at hrev
    | cons c r =>
      have hc : isWs c = false := by
        apply hl
        rw [List.getLast?_eq_head?_reverse, hrev]
        rfl
      rw [List.dropWhile_cons_of_neg (by simp [hc]), ← hrev, List.reverse_reverse]

/-- Characters of `finalPunctStrip l` come from `l`. -/
theorem mem_finalPunctStrip : ∀ (l : List Char), ∀ c ∈ finalPunctStrip l, c ∈ l := by
  intro l c hc
  cases hr : List.dropWhile isWs l.reverse with
  | nil =>
    simp only [finalPunctStrip, hr] at hc
    exact hc
  | cons c0 r2 =>
    simp only [finalPunctStrip, hr] at hc
    split at hc
    · rw [List.mem_reverse] at hc
      have h1 := (List.dropWhile_sublist isPunctF).subset
        ((List.dropWhile_sublist isWs).subset hc)
      have h2 : c ∈ List.dropWhile isWs l.reverse := hr ▸ h1
      exact List.mem_reverse.mp ((List.dropWhile_sublist isWs).subset h2)
    · exact hc

/-- `finalPunctStrip` is the identity when the last character is neither
whitespace nor trailing punctuation. -/
theorem finalPunctStrip_eq_self (l : List Char)
    (hws : ∀ c, l.getLast? = some c → isWs c = false)
    (hp : ∀ c, l.getLast? = some c → isPunctF c = false) : finalPunctStrip l = l := by
  cases hrev : l.reverse with
  | nil =>
    have : l = [] := by simpa using congrArg List.reverse hrev
    subst this
    rfl
  | cons c r =>
    have hlast : l.getLast? = some c := by
      rw [List.getLast?_eq_head?_reverse, hrev]
      rfl
    have hcw : isWs c = false := hws c hlast
    have hcp : isPunctF c = false := hp c hlast
    have hdw : List.dropWhile isWs l.reverse = c :: r := by
      rw [hrev]
      exact List.dropWhile_cons_of_neg (by simp [hcw])
    simp only [finalPunctStrip, hdw]
    simp [hcp]

/-- Mapping a function that fixes every member is the identity. -/
theorem list_map_id_of_mem {α} (f : α → α) :
    ∀ (l : List α), (∀ c ∈ l, f c = c) → l.map f = l := by
  intro l
  induction l with
  | nil => intro _; rfl
  | cons a rest ih =>
    intro h
    simp only [List.map_cons, h a (List.mem_cons_self _ _),
      ih (fun c hc => h c (List.mem_cons_of_mem _ hc))]

/-- Every character of a canonical form is fixed by lowercasing. -/
theorem canonList_toLower_fixed (l : List Char) :
    ∀ c ∈ canonList l, c.toLower = c := by
  intro c hc
  have h1 := mem_pyStrip _ c hc
  rcases mem_collapseWs _ c h1 with h | h
  · subst h; decide
  · have h2 := mem_finalPunctStrip _ c h
    rcases List.mem_map.mp h2 with ⟨d, _, hd⟩
    rw [← hd]
    exact toLower_toLower d

/-- Whitespace inside a canonical form is the single ASCII space. -/
theorem canonList_ws_space (l : List Char) :
    ∀ c ∈ canonList l, isWs c = true → c = ' ' := by
  intro c hc hw
  exact collapseWs_ws_space _ c (mem_pyStrip _ c hc) hw

/-- A canonical form has no two adjacent whitespace characters. -/
theorem canonList_chain' (l : List Char) : List.Chain' wsAdjOk (canonList l) := by
  have h1 := collapseWs_chain' (finalPunctStrip ((pyStrip l).map Char.toLower))
  have h2 : List.Chain' wsAdjOk ((collapseWs (finalPunctStrip ((pyStrip l).map Char.toLower))).dropWhile isWs) :=
    h1.suffix (List.dropWhile_suffix isWs)
  exact h2.prefix (pyRstrip_prefix_self _)

/-- A canonical form does not start with whitespace. -/
theorem canonList_head_not_ws (l : List Char) :
    ∀ c, (canonList l).head? = some c → isWs c = false :=
  pyStrip_head_not_ws _

/-- A canonical form does not end with whitespace. -/
theorem canonList_getLast_not_ws (l : List Char) :
    ∀ c, (canonList l).getLast? = some c → isWs c = false :=
  pyStrip_getLast_not_ws _

/-- Canonicalization is idempotent on lists whose canonical form does not
end in a trailing-punctuation character. -/
theorem canonList_idem (l : List Char)
    (h : ∀ c, (canonList l).getLast? = some c → isPunctF c = false) :
    canonList (canonList l) = canonList l := by
  have h1 : pyStrip (canonList l) = canonList l :=
    pyStrip_eq_self _ (canonList_head_not_ws l) (canonList_getLast_not_ws l)
  have h2 : (canonList l).map Char.toLower = canonList l :=
    list_map_id_of_mem _ _ (canonList_toLower_fixed l)
  have h3 : finalPunctStrip (canonList l) = canonList l :=
    finalPunctStrip_eq_self _ (canonList_getLast_not_ws l) h
  have h4 : collapseWs (canonList l) = canonList l :=
    collapseWs_eq_self _ (canonList_ws_space l) (canonList_chain' l)
  show pyStrip (collapseWs (finalPunctStrip ((pyStrip (canonList l)).map Char.toLower))) = canonList l
  rw [h1, h2, h3, h4, h1]

/-- Does a string end in a `FINAL_PUNCT_RE` punctuation character? -/
def endsWithPunct (s : String) : Bool :=
  match s.data.getLast? with
  | some c => isPunctF c
  | none => false

/-- C3 amended: `canonicalize` lowercases, strips one trailing run of
punctuation optionally surrounded by whitespace, collapses whitespace runs
and trims; it satisfies `canonicalize (canonicalize s) = canonicalize s`
for every string whose canonical form does not itself end in one of the
punctuation characters (the counterexample `". ."` shows the unrestricted
claim fails, because only the last whitespace-separated punctuation run is
stripped). -/
theorem claim_c3_amended (s : String) (h : endsWithPunct (canonicalize s) = false) :
    canonicalize (canonicalize s) = canonicalize s := by
  have hp : ∀ c, (canonList s.data).getLast? = some c → isPunctF c = false := by
    intro c hc
    unfold endsWithPunct at h
    simp only [canonicalize] at h
    rw [hc] at h
    exact h
  show (⟨canonList (canonList s.data)⟩ : String) = ⟨canonList s.data⟩
  rw [canonList_idem s.data hp]

/-- C3 witness: `"abc."` canonicalizes to `"abc"`, which does not end in
punctuation, and the amended idempotence applies. -/
theorem claim_c3_amended_witness :
    endsWithPunct (canonicalize ("abc.")) = false ∧
    canonicalize (canonicalize ("abc.")) = canonicalize ("abc.") :=
  ⟨by decide, claim_c3_amended ("abc.") (by decide)⟩

/-- A row produced by the delimiter-pattern strategy has a nonempty code:
the code capture is a nonempty maximal run of non-whitespace characters. -/
theorem parseDelim_code_ne (raw : List Char) (r : IcdRow) (h : parseDelim raw = some r) :
    r.code ≠ "" := by
  unfold parseDelim at h
  split at h
  case isFalse => exact Option.noConfusion h
  try simp only [] at h
  split at h
  case isTrue => exact Option.noConfusion h
  split at h
  case h_1 => exact Option.noConfusion h
  try simp only [] at h
  split at h
  case isTrue => exact Option.noConfusion h
  split at h
  case h_1 => exact Option.noConfusion h
  split at h
  case isFalse => exact Option.noConfusion h
  split at h
  case h_1 => exact Option.noConfusion h
  cases h
  simp [String.ext_iff]

theorem parseBestEffort_code_ne (raw : List Char) (r : IcdRow) (h : parseBestEffort raw = some r) :
    r.code ≠ "" := by
  unfold parseBestEffort at h
  split at h
  case isFalse => exact Option.noConfusion h
  try simp only [] at h
  split at h
  case isTrue => exact Option.noConfusion h
  split at h
  case h_1 => exact Option.noConfusion h
  try simp only [] at h
  split at h
  case isTrue => exact Option.noConfusion h
  split at h
  case h_1 => exact Option.noConfusion h
  split at h
  case isFalse => exact Option.noConfusion h
  try simp only [] at h
  split at h
  case isTrue => exact Option.noConfusion h
  split at h
  case h_1 => exact Option.noConfusion h
  try simp only [] at h
  cases h
  simp [String.ext_iff]

/-- C4 amended: the non-emptiness invariant holds for the delimiter-pattern
and best-effort strategies, whose code capture is a nonempty `\S+` token:
whenever `parse_line` returns a row and the fixed-width strategy did not
apply, the row's `code` is nonempty.  (Rows from the fixed-width strategy
can have an empty `code` and an empty `long_desc`, as the counterexample
shows, because its fields are fixed slices that may be all spaces.) -/
theorem claim_c4_amended (line : String) (r : IcdRow)
    (h : parse_line line = some r) (hf : parseFixed (rstripCRLF line.data) = none) :
    r.code ≠ "" := by
  unfold parse_line at h
  simp only [] at h
  split at h
  · exact Option.noConfusion h
  · rw [hf] at h
    simp only [] at h
    cases hd : parseDelim (rstripCRLF line.data) with
    | some r2 =>
      rw [hd] at h
      cases h
      exact parseDelim_code_ne _ _ hd
    | none =>
      rw [hd] at h
      exact parseBestEffort_code_ne _ _ h

/-- The row parsed from the C4 witness line. -/
def c4WitnessRow : IcdRow := ⟨1, "A00.0", 1, "Chol", "Cholera"⟩

/-- C4 amended witness: a short line handled by the delimiter-pattern
strategy; the fixed-width strategy does not apply and the code is
`"A00.0"`. -/
theorem claim_c4_amended_witness :
    parse_line ("00001 A00.0 1 Chol  Cholera") = some c4WitnessRow ∧
    parseFixed (rstripCRLF ("00001 A00.0 1 Chol  Cholera").data) = none ∧
    c4WitnessRow.code ≠ "" :=
  ⟨by decide, by decide,
   claim_c4_amended ("00001 A00.0 1 Chol  Cholera") c4WitnessRow (by decide) (by decide)⟩

set_option maxHeartbeats 2000000

/-- C7: rule C2 fires exactly on terms ending in the literal suffix
`", unspecified"` whose remaining stem has at least two
whitespace-separated words, and then yields exactly
`"unspecified " ++ stem`; in particular the two scenario terms behave as
claimed. -/
theorem claim_c7_rule_c2_unspecified :
    ruleUnspecifiedSuffixSwap ("chronic kidney disease, unspecified") =
      ["unspecified chronic kidney disease"] ∧
    ruleUnspecifiedSuffixSwap ("anthrax, unspecified") = [] ∧
    ∀ t : String,
      (ruleUnspecifiedSuffixSwap t ≠ [] ↔
        ((", unspecified".data.isSuffixOf t.data) = true ∧
          2 ≤ (pySplitWs (unspecStem t)).length)) ∧
      (ruleUnspecifiedSuffixSwap t = [] ∨
        ruleUnspecifiedSuffixSwap t = [⟨"unspecified ".data ++ unspecStem t⟩]) := by
  refine ⟨by decide, by decide, ?_⟩
  intro t
  constructor
  · constructor
    · intro hne
      unfold ruleUnspecifiedSuffixSwap at hne
      simp only [] at hne
      split at hne
      · rename_i hsuf
        split at hne
        · exact absurd rfl hne
        · split at hne
          · exact absurd rfl hne
          · rename_i hlen
            exact ⟨hsuf, by omega⟩
      · exact absurd rfl hne
    · rintro ⟨hsuf, hlen⟩
      unfold ruleUnspecifiedSuffixSwap
      rw [if_pos hsuf]
      have hstem : ¬ unspecStem t = [] := by
        intro he
        rw [he] at hlen
        simp [pySplitWs, pySplitWsFuel] at hlen
      rw [if_neg hstem, if_neg (by omega)]
      simp
  · unfold ruleUnspecifiedSuffixSwap
    simp only []
    split
    · split
      · exact Or.inl rfl
      · split
        · exact Or.inl rfl
        · exact Or.inr rfl
    · exact Or.inl rfl

/-- C8: rule D1 on the scenario term yields exactly four variants, one per
stage 1 through 4, each replacing only the matched span; and in general a
term either has no stage-range match (no variants) or the leftmost match
with digits `a`, `b` yields one variant per integer in
`[min a b, max a b]`, each rebuilt around the unchanged prefix and
suffix. -/
theorem claim_c8_rule_d1_stage_range :
    ruleExpandCkdStageRange ("diabetes with stage 1 through stage 4 chronic kidney disease") =
      ["diabetes with stage 1 chronic kidney disease",
       "diabetes with stage 2 chronic kidney disease",
       "diabetes with stage 3 chronic kidney disease",
       "diabetes with stage 4 chronic kidney disease"] ∧
    ∀ t : String,
      (stageSearchAux [] false t.data = none ∧ ruleExpandCkdStageRange t = []) ∨
      ∃ pre a b post, stageSearchAux [] false t.data = some (pre, a, b, post) ∧
        (ruleExpandCkdStageRange t).length = max a b + 1 - min a b ∧
        ruleExpandCkdStageRange t =
          (List.range (max a b + 1 - min a b)).map
            (fun i => ⟨pre ++ ("stage ".data) ++ [Char.ofNat ('0'.toNat + (min a b + i))] ++ post⟩) := by
  refine ⟨by decide, ?_⟩
  intro t
  cases h : stageSearchAux [] false t.data with
  | none =>
    refine Or.inl ⟨rfl, ?_⟩
    unfold ruleExpandCkdStageRange
    rw [h]
  | some q =>
    obtain ⟨pre, a, b, post⟩ := q
    refine Or.inr ⟨pre, a, b, post, rfl, ?_, ?_⟩
    · unfold ruleExpandCkdStageRange
      rw [h]
      simp
    · unfold ruleExpandCkdStageRange
      rw [h]
